import Mathlib

/-!
Verification of the Plate Token Codec of the `marchamo` repository.

The codec lives in `src/server.ts` (helpers `normalizePlaca`, `base64url`,
`fromBase64UrlToString`, `sign`, `makeQrToken`, `verifyQrToken`) with a
second variant of `makeQrToken` in `src/src/server.ts` that signs the raw,
un-normalized plate.

Modelling conventions:
- JavaScript strings are modelled as lists of Unicode scalar values
  (Lean `Char`); bytes (Node `Buffer` contents) as natural numbers < 256.
- Node library functions used by the codec (`Buffer.from`, UTF-8 and
  base64 conversion, `crypto.createHmac`, `crypto.timingSafeEqual`) are
  modelled from their documented behavior; everything else is translated
  directly from the TypeScript source.
-/

namespace Marchamo

/-- JavaScript strings: lists of Unicode scalar values. -/
abbrev Str := List Char

/-- The code points stripped by JavaScript `String.prototype.trim`
(WhiteSpace and LineTerminator). -/
def jsSpaceCodes : List Nat :=
  [9, 10, 11, 12, 13, 32, 160, 0x1680, 0x2000, 0x2001, 0x2002, 0x2003, 0x2004,
   0x2005, 0x2006, 0x2007, 0x2008, 0x2009, 0x200a, 0x2028, 0x2029, 0x202f,
   0x205f, 0x3000, 0xfeff]

/-- Is `c` whitespace in the sense of `String.prototype.trim`? -/
def jsIsSpace (c : Char) : Bool := decide (c.toNat ∈ jsSpaceCodes)

/-- Drop the trailing characters satisfying `p`. -/
def dropTrailing (p : Char → Bool) (l : Str) : Str :=
  (l.reverse.dropWhile p).reverse

/-- JavaScript `String.prototype.trim`: strip leading and trailing whitespace. -/
def jsTrim (s : Str) : Str :=
  dropTrailing jsIsSpace (s.dropWhile jsIsSpace)

/-- `normalizePlaca` from `src/server.ts` lines 64-66:
`String(input || "").trim().toUpperCase()`. On string inputs
`String(input || "")` is the input itself (the empty string stays empty), so
the function is trim followed by uppercase. `Char.toUpper` performs exactly
the ASCII case mapping `a`-`z` to `A`-`Z` of `String.prototype.toUpperCase`
(the mapping used on plate identifiers; non-ASCII letters are modelled as
unchanged). -/
def normalizePlaca (input : Str) : Str :=
  (jsTrim input).map Char.toUpper

/-! ## UTF-8: Node `Buffer.from(string)` and `buffer.toString("utf8")` -/

/-- UTF-8 encoding of one scalar value. -/
def utf8Char (c : Char) : List Nat :=
  let n := c.toNat
  if n < 0x80 then [n]
  else if n < 0x800 then [0xc0 + n / 64, 0x80 + n % 64]
  else if n < 0x10000 then [0xe0 + n / 4096, 0x80 + n / 64 % 64, 0x80 + n % 64]
  else [0xf0 + n / 0x40000, 0x80 + n / 4096 % 64, 0x80 + n / 64 % 64, 0x80 + n % 64]

/-- UTF-8 encoding of a string: models `Buffer.from(s)` for a JS string `s`. -/
def utf8Str : Str → List Nat
  | [] => []
  | c :: cs => utf8Char c ++ utf8Str cs

/-- Is `b` a UTF-8 continuation byte? -/
def isCont (b : Nat) : Bool := 0x80 ≤ b && b < 0xc0

/-- First-continuation-byte range check for a 3-byte lead `b`
(WHATWG UTF-8 decode: excludes overlong forms and surrogates). -/
def cont3Lo (b b2 : Nat) : Bool :=
  if b == 0xe0 then 0xa0 ≤ b2 && b2 ≤ 0xbf
  else if b == 0xed then 0x80 ≤ b2 && b2 ≤ 0x9f
  else isCont b2

/-- First-continuation-byte range check for a 4-byte lead `b`. -/
def cont4Lo (b b2 : Nat) : Bool :=
  if b == 0xf0 then 0x90 ≤ b2 && b2 ≤ 0xbf
  else if b == 0xf4 then 0x80 ≤ b2 && b2 ≤ 0x8f
  else isCont b2

/-- UTF-8 decoding with U+FFFD replacement for ill-formed input: models
`buffer.toString("utf8")` (WHATWG decoding; Node never throws here). Only
the behavior on well-formed input matters for the proofs below. -/
def utf8DecodeR : List Nat → Str
  | [] => []
  | b :: bs =>
    if b < 0x80 then Char.ofNat b :: utf8DecodeR bs
    else if b < 0xc2 then '�' :: utf8DecodeR bs
    else if b < 0xe0 then
      match bs with
      | [] => ['�']
      | b2 :: bs2 =>
        if isCont b2 then Char.ofNat ((b - 0xc0) * 64 + (b2 - 0x80)) :: utf8DecodeR bs2
        else '�' :: utf8DecodeR (b2 :: bs2)
    else if b < 0xf0 then
      match bs with
      | [] => ['�']
      | b2 :: bs2 =>
        if cont3Lo b b2 then
          match bs2 with
          | [] => ['�']
          | b3 :: bs3 =>
            if isCont b3 then
              Char.ofNat ((b - 0xe0) * 0x1000 + (b2 - 0x80) * 64 + (b3 - 0x80)) ::
                utf8DecodeR bs3
            else '�' :: utf8DecodeR (b3 :: bs3)
        else '�' :: utf8DecodeR (b2 :: bs2)
    else if b < 0xf5 then
      match bs with
      | [] => ['�']
      | b2 :: bs2 =>
        if cont4Lo b b2 then
          match bs2 with
          | [] => ['�']
          | b3 :: bs3 =>
            if isCont b3 then
              match bs3 with
              | [] => ['�']
              | b4 :: bs4 =>
                if isCont b4 then
                  Char.ofNat ((b - 0xf0) * 0x40000 + (b2 - 0x80) * 0x1000 +
                      (b3 - 0x80) * 64 + (b4 - 0x80)) :: utf8DecodeR bs4
                else '�' :: utf8DecodeR (b4 :: bs4)
            else '�' :: utf8DecodeR (b3 :: bs3)
        else '�' :: utf8DecodeR (b2 :: bs2)
    else '�' :: utf8DecodeR bs

/-! ## Base64: Node `buffer.toString("base64")` and `Buffer.from(str, "base64")` -/

/-- The standard base64 alphabet. -/
def stdAlphabet : Str :=
  "ABCDEFGHIJKLMNOPQRSTUVWXYZabcdefghijklmnopqrstuvwxyz0123456789+/".toList

/-- The alphabet character of a 6-bit group. -/
def stdChar (v : Nat) : Char := stdAlphabet.getD v 'A'

/-- The 6-bit value of a base64 alphabet character; `none` for characters
outside the alphabet. Node's forgiving base64 decoder skips characters that
carry no value (whitespace, `=` padding, any other non-alphabet byte). -/
def charVal (c : Char) : Option Nat :=
  if 'A' ≤ c ∧ c ≤ 'Z' then some (c.toNat - 65)
  else if 'a' ≤ c ∧ c ≤ 'z' then some (c.toNat - 71)
  else if '0' ≤ c ∧ c ≤ '9' then some (c.toNat + 4)
  else if c = '+' then some 62
  else if c = '/' then some 63
  else none

/-- The 6-bit groups of a byte sequence (big-endian; a final partial group
is zero-padded on the right, as in base64). -/
def valsOf : List Nat → List Nat
  | b1 :: b2 :: b3 :: r =>
    (b1 / 4) :: (b1 % 4 * 16 + b2 / 16) :: (b2 % 16 * 4 + b3 / 64) :: (b3 % 64) :: valsOf r
  | [b1, b2] => [b1 / 4, b1 % 4 * 16 + b2 / 16, b2 % 16 * 4]
  | [b1] => [b1 / 4, b1 % 4 * 16]
  | [] => []

/-- Reassemble bytes from 6-bit groups (base64 decoding; a lone trailing
group carries fewer than 8 bits and yields no byte, as in Node). -/
def bytesOfVals : List Nat → List Nat
  | v1 :: v2 :: v3 :: v4 :: r =>
    (v1 * 4 + v2 / 16) :: (v2 % 16 * 16 + v3 / 4) :: (v3 % 4 * 64 + v4) :: bytesOfVals r
  | [v1, v2, v3] => [v1 * 4 + v2 / 16, v2 % 16 * 16 + v3 / 4]
  | [v1, v2] => [v1 * 4 + v2 / 16]
  | [_] => []
  | [] => []

/-- Base64 padding for a byte-sequence length. -/
def b64Pad (len : Nat) : Str :=
  if len % 3 = 1 then ['=', '='] else if len % 3 = 2 then ['='] else []

/-- Node `buffer.toString("base64")`: standard base64 with padding. -/
def toBase64 (b : List Nat) : Str := (valsOf b).map stdChar ++ b64Pad b.length

/-- JS `String.prototype.replace` with a global single-character pattern. -/
def replaceAllChar (c1 c2 : Char) (s : Str) : Str :=
  s.map fun c => if c = c1 then c2 else c

/-- JS `replace(/=+$/g, "")`: strip all trailing `=`. -/
def stripTrailingEq (s : Str) : Str :=
  (s.reverse.dropWhile (fun c => c == '=')).reverse

/-- `base64url` from `src/server.ts` lines 103-110 (byte input): standard
base64 of the bytes, then `+` to `-`, `/` to `_`, and trailing `=` stripped. -/
def base64url (b : List Nat) : Str :=
  stripTrailingEq (replaceAllChar '/' '_' (replaceAllChar '+' '-' (toBase64 b)))

/-- `base64url` on a JS string input (the `Buffer.from(input)` branch of
lines 103-104): the UTF-8 bytes are encoded. -/
def base64urlStr (s : Str) : Str := base64url (utf8Str s)

/-- Node `Buffer.from(str, "base64")`: forgiving decoding — characters
outside the base64 alphabet (`=` padding and whitespace included) are
skipped, a lone trailing 6-bit group yields no byte, and no input throws. -/
def bufFromBase64 (s : Str) : List Nat := bytesOfVals (s.filterMap charVal)

/-- `fromBase64UrlToString` from `src/server.ts` lines 112-117: map the
url-safe alphabet back (`-` to `+`, `_` to `/`), re-pad with `=` to a
multiple of four (`padLen` then `padded` in the source), decode base64 and
read the bytes as UTF-8 text. -/
def pad64 (s : Str) : Str := s ++ List.replicate ((4 - s.length % 4) % 4) '='

/-- `fromBase64UrlToString` from `src/server.ts` lines 112-117 (continued):
`padded` is `pad64` of the replaced string. -/
def fromBase64UrlToString (b64url : Str) : Str :=
  utf8DecodeR (bufFromBase64 (pad64 (replaceAllChar '_' '/' (replaceAllChar '-' '+' b64url))))

/-- The character written by `base64url` for a 6-bit group: the standard
alphabet character after the `+` to `-` and `/` to `_` replacements. -/
def urlChar (v : Nat) : Char :=
  let c := stdChar v
  if c = '+' then '-' else if c = '/' then '_' else c

/-- The decode-side character replacements of `fromBase64UrlToString`
applied to one character. -/
def backChar (c : Char) : Char :=
  let c1 := if c = '-' then '+' else c
  if c1 = '_' then '/' else c1

/-! ## SHA-256 and HMAC-SHA256: `crypto.createHmac("sha256", key)` -/

/-- Right rotation of a 32-bit word. -/
def rotr32 (k n : Nat) : Nat := (n >>> k) ||| ((n <<< (32 - k)) % 2 ^ 32)

/-- SHA-256 `Ch` function. -/
def shaCh (x y z : Nat) : Nat := (x &&& y) ^^^ ((x ^^^ 0xffffffff) &&& z)

/-- SHA-256 `Maj` function. -/
def shaMaj (x y z : Nat) : Nat := (x &&& y) ^^^ (x &&& z) ^^^ (y &&& z)

/-- SHA-256 big sigma 0. -/
def bSig0 (x : Nat) : Nat := rotr32 2 x ^^^ rotr32 13 x ^^^ rotr32 22 x

/-- SHA-256 big sigma 1. -/
def bSig1 (x : Nat) : Nat := rotr32 6 x ^^^ rotr32 11 x ^^^ rotr32 25 x

/-- SHA-256 small sigma 0. -/
def sSig0 (x : Nat) : Nat := rotr32 7 x ^^^ rotr32 18 x ^^^ (x >>> 3)

/-- SHA-256 small sigma 1. -/
def sSig1 (x : Nat) : Nat := rotr32 17 x ^^^ rotr32 19 x ^^^ (x >>> 10)

/-- The SHA-256 round constants (FIPS 180-4, written in decimal). -/
def k256 : List Nat :=
  [1116352408, 1899447441, 3049323471, 3921009573, 961987163, 1508970993,
   2453635748, 2870763221, 3624381080, 310598401, 607225278, 1426881987,
   1925078388, 2162078206, 2614888103, 3248222580, 3835390401, 4022224774,
   264347078, 604807628, 770255983, 1249150122, 1555081692, 1996064986,
   2554220882, 2821834349, 2952996808, 3210313671, 3336571891, 3584528711,
   113926993, 338241895, 666307205, 773529912, 1294757372, 1396182291,
   1695183700, 1986661051, 2177026350, 2456956037, 2730485921, 2820302411,
   3259730800, 3345764771, 3516065817, 3600352804, 4094571909, 275423344,
   430227734, 506948616, 659060556, 883997877, 958139571, 1322822218,
   1537002063, 1747873779, 1955562222, 2024104815, 2227730452, 2361852424,
   2428436474, 2756734187, 3204031479, 3329325298]

/-- SHA-256 state: eight 32-bit words. -/
structure H8 where
  a : Nat
  b : Nat
  c : Nat
  d : Nat
  e : Nat
  f : Nat
  g : Nat
  h : Nat

/-- The SHA-256 initial hash value (FIPS 180-4, written in decimal). -/
def h0 : H8 :=
  ⟨1779033703, 3144134277, 1013904242, 2773480762,
   1359893119, 2600822924, 528734635, 1541459225⟩

/-- Extend the 16 message-schedule words by `t` more words. -/
def extendW : Nat → List Nat → List Nat
  | 0, w => w
  | t + 1, w =>
    extendW t (w ++ [(sSig1 (w.getD (w.length - 2) 0) + w.getD (w.length - 7) 0 +
      sSig0 (w.getD (w.length - 15) 0) + w.getD (w.length - 16) 0) % 2 ^ 32])

/-- One SHA-256 compression round. -/
def compressStep (s : H8) (k w : Nat) : H8 :=
  let t1 := (s.h + bSig1 s.e + shaCh s.e s.f s.g + k + w) % 2 ^ 32
  let t2 := (bSig0 s.a + shaMaj s.a s.b s.c) % 2 ^ 32
  ⟨(t1 + t2) % 2 ^ 32, s.a, s.b, s.c, (s.d + t1) % 2 ^ 32, s.e, s.f, s.g⟩

/-- Process one 512-bit block (given as 16 big-endian words). -/
def compressBlock (s : H8) (block16 : List Nat) : H8 :=
  let w := extendW 48 block16
  let t := (k256.zip w).foldl (fun st kw => compressStep st kw.1 kw.2) s
  ⟨(s.a + t.a) % 2 ^ 32, (s.b + t.b) % 2 ^ 32, (s.c + t.c) % 2 ^ 32,
   (s.d + t.d) % 2 ^ 32, (s.e + t.e) % 2 ^ 32, (s.f + t.f) % 2 ^ 32,
   (s.g + t.g) % 2 ^ 32, (s.h + t.h) % 2 ^ 32⟩

/-- A 64-bit big-endian length field. -/
def be64 (n : Nat) : List Nat :=
  [n / 2 ^ 56 % 256, n / 2 ^ 48 % 256, n / 2 ^ 40 % 256, n / 2 ^ 32 % 256,
   n / 2 ^ 24 % 256, n / 2 ^ 16 % 256, n / 2 ^ 8 % 256, n % 256]

/-- SHA-256 message padding: `0x80`, zeros to 56 mod 64, 64-bit bit length. -/
def shaPad (m : List Nat) : List Nat :=
  m ++ 0x80 :: List.replicate ((64 - (m.length + 9) % 64) % 64) 0 ++ be64 (8 * m.length)

/-- Big-endian 32-bit words of a byte sequence. -/
def word4 : List Nat → List Nat
  | b1 :: b2 :: b3 :: b4 :: r =>
    (b1 * 0x1000000 + b2 * 0x10000 + b3 * 0x100 + b4) :: word4 r
  | _ => []

/-- Split into 64-byte blocks (fuel-driven for termination; the fuel is the
length, enough for every input). -/
def chunks64Go : Nat → List Nat → List (List Nat)
  | 0, _ => []
  | _, [] => []
  | fuel + 1, l => l.take 64 :: chunks64Go fuel (l.drop 64)

/-- Split a byte sequence into 64-byte blocks. -/
def chunks64 (l : List Nat) : List (List Nat) := chunks64Go l.length l

/-- The big-endian bytes of a 32-bit word. -/
def wordBytes (w : Nat) : List Nat :=
  [w / 0x1000000 % 256, w / 0x10000 % 256, w / 0x100 % 256, w % 256]

/-- Serialize the final SHA-256 state to its 32-byte digest. -/
def serializeH8 (s : H8) : List Nat :=
  wordBytes s.a ++ wordBytes s.b ++ wordBytes s.c ++ wordBytes s.d ++
  wordBytes s.e ++ wordBytes s.f ++ wordBytes s.g ++ wordBytes s.h

/-- SHA-256 of a byte sequence. -/
def sha256 (m : List Nat) : List Nat :=
  serializeH8 ((chunks64 (shaPad m)).foldl (fun s blk => compressBlock s (word4 blk)) h0)

/-- HMAC-SHA256 (RFC 2104): models `crypto.createHmac("sha256", key)` with
`update(msg)` and `digest()`. -/
def hmacSha256 (key msg : List Nat) : List Nat :=
  let k0 := if 64 < key.length then sha256 key else key
  let kp := k0 ++ List.replicate (64 - k0.length) 0
  sha256 ((kp.map fun b => b ^^^ 0x5c) ++ sha256 ((kp.map fun b => b ^^^ 0x36) ++ msg))

/-! ## The codec of `src/server.ts` -/

/-- `QR_SECRET` from `src/server.ts` line 100:
`process.env.QR_SECRET || "dev_secret_change_me"`, modelled as the fixed
fallback value — a process-wide secret fixed at start. -/
def QR_SECRET : Str := "dev_secret_change_me".toList

/-- `sign` from `src/server.ts` lines 119-121:
`base64url(crypto.createHmac("sha256", QR_SECRET).update(payload).digest())`.
The string key and payload enter the HMAC as their UTF-8 bytes. -/
def sign (payload : Str) : Str :=
  base64url (hmacSha256 (utf8Str QR_SECRET) (utf8Str payload))

/-- `makeQrToken` from `src/server.ts` lines 123-127: the payload is the
normalized plate, and the token is
`base64url(payload) + "." + sign(payload)`. -/
def makeQrToken (placa : Str) : Str :=
  base64urlStr (normalizePlaca placa) ++ '.' :: sign (normalizePlaca placa)

/-- `makeQrToken` from `src/src/server.ts` lines 82-86 (the second copy of
the server): `const payload = placa` — the raw plate is signed without
normalization. Its `sign`, `base64url` and secret are the same definitions. -/
def makeQrTokenRaw (placa : Str) : Str :=
  base64urlStr placa ++ '.' :: sign placa

/-- JS `token.split(".")`. -/
def splitDot : Str → List Str
  | [] => [[]]
  | c :: rest =>
    if c = '.' then [] :: splitDot rest
    else
      match splitDot rest with
      | [] => [[c]]
      | g :: gs => (c :: g) :: gs

/-- `crypto.timingSafeEqual(a, b)` on byte buffers: throws on length
mismatch (modelled as `none`), otherwise reports byte-sequence equality.
That the comparison runs in constant time is a real-time property with no
counterpart in this model. -/
def timingSafeEqual (a b : List Nat) : Option Bool :=
  if a.length = b.length then some (a == b) else none

/-- `verifyQrToken` from `src/server.ts` lines 129-152. `parts` must have
exactly two entries; `placa` (inlined below) is the decoded first segment,
`expected` the recomputed signature. The `try` around
`fromBase64UrlToString` never fires (Node base64 and UTF-8 decoding are
forgiving and total); the `try` around `crypto.timingSafeEqual` catches its
length-mismatch exception and returns `null` (the `none` branch). On
success the code returns `{ placa: normalizePlaca(placa) }`. -/
def verifyQrToken (token : Str) : Option Str :=
  match splitDot token with
  | [payloadB64, sig] =>
    match timingSafeEqual (utf8Str sig)
        (utf8Str (sign (fromBase64UrlToString payloadB64))) with
    | none => none
    | some ok =>
      if ok then some (normalizePlaca (fromBase64UrlToString payloadB64)) else none
  | _ => none

/-! ## Normalization lemmas: trim and uppercase -/

/-! ## `splitDot`, digest and verification lemmas -/

/-- The byte-level part of `fromBase64UrlToString`: the bytes a segment
decodes to under the codec's own base64url decoding (before the UTF-8 text
step). The spec's "decoded signature segment" refers to these bytes. -/
def fromBase64UrlBytes (seg : Str) : List Nat :=
  bufFromBase64 (pad64 (replaceAllChar '_' '/' (replaceAllChar '-' '+' seg)))

/-! ## The claims -/

/-! ## Lemmas and claims -/

/-- `(Char.ofNat n).toNat = n` for valid scalar values. -/
theorem charToNat_ofNat (n : Nat) (h : n.isValidChar) : (Char.ofNat n).toNat = n := by
  simp only [Char.ofNat, dif_pos h, Char.ofNatAux, Char.toNat, UInt32.toNat,
    BitVec.toNat_ofNatLt]

/-- Decoding inverts encoding, one character at a time. -/
theorem utf8DecodeR_char_append (c : Char) (rest : List Nat) :
    utf8DecodeR (utf8Char c ++ rest) = c :: utf8DecodeR rest := by
  obtain ⟨n, hn, hv, hofn⟩ : ∃ n, c.toNat = n ∧
      (n < 0xd800 ∨ (0xdfff < n ∧ n < 0x110000)) ∧ Char.ofNat n = c :=
    ⟨c.toNat, rfl, c.valid, Char.ofNat_toNat c⟩
  simp only [utf8Char, hn]
  by_cases h1 : n < 0x80
  · rw [if_pos h1, utf8DecodeR.eq_def]
    simp [h1, hofn]
  · by_cases h2 : n < 0x800
    · have e1 : ¬(0xc0 + n / 64 < 0x80) := by omega
      have e2 : ¬(0xc0 + n / 64 < 0xc2) := by omega
      have e3 : 0xc0 + n / 64 < 0xe0 := by omega
      have e4 : isCont (0x80 + n % 64) = true := by simp [isCont]; omega
      rw [if_neg h1, if_pos h2, utf8DecodeR.eq_def]
      simp [e1, e2, e3, e4]
      rw [← hofn]
      congr 1
      omega
    · by_cases h3 : n < 0x10000
      · have e1 : ¬(0xe0 + n / 4096 < 0x80) := by omega
        have e2 : ¬(0xe0 + n / 4096 < 0xc2) := by omega
        have e3 : ¬(0xe0 + n / 4096 < 0xe0) := by omega
        have e4 : 0xe0 + n / 4096 < 0xf0 := by omega
        have e5 : cont3Lo (0xe0 + n / 4096) (0x80 + n / 64 % 64) = true := by
          simp only [cont3Lo, isCont]
          by_cases hc1 : 0xe0 + n / 4096 = 0xe0
          · have hc1' : (0xe0 + n / 4096 == 0xe0) = true := by simp [beq_iff_eq, hc1]
            simp only [hc1', if_true, Bool.and_eq_true, decide_eq_true_eq]
            omega
          · have hc1' : (0xe0 + n / 4096 == 0xe0) = false := by
              simp [beq_iff_eq]; omega
            by_cases hc2 : 0xe0 + n / 4096 = 0xed
            · have hc2' : (0xe0 + n / 4096 == 0xed) = true := by simp [beq_iff_eq, hc2]
              simp only [hc1', Bool.false_eq_true, if_false, hc2', if_true,
                Bool.and_eq_true, decide_eq_true_eq]
              omega
            · have hc2' : (0xe0 + n / 4096 == 0xed) = false := by
                simp [beq_iff_eq]; omega
              simp only [hc1', Bool.false_eq_true, if_false, hc2',
                Bool.and_eq_true, decide_eq_true_eq]
              omega
        have e6 : isCont (0x80 + n % 64) = true := by simp [isCont]; omega
        rw [if_neg h1, if_neg h2, if_pos h3, utf8DecodeR.eq_def]
        simp [e1, e2, e3, e4, e5, e6]
        rw [← hofn]
        congr 1
        omega
      · have h4 : n < 0x110000 := by omega
        have e1 : ¬(0xf0 + n / 0x40000 < 0x80) := by omega
        have e2 : ¬(0xf0 + n / 0x40000 < 0xc2) := by omega
        have e3 : ¬(0xf0 + n / 0x40000 < 0xe0) := by omega
        have e4 : ¬(0xf0 + n / 0x40000 < 0xf0) := by omega
        have e5 : 0xf0 + n / 0x40000 < 0xf5 := by omega
        have e6 : cont4Lo (0xf0 + n / 0x40000) (0x80 + n / 4096 % 64) = true := by
          simp only [cont4Lo, isCont]
          by_cases hc1 : 0xf0 + n / 0x40000 = 0xf0
          · have hc1' : (0xf0 + n / 0x40000 == 0xf0) = true := by simp [beq_iff_eq, hc1]
            simp only [hc1', if_true, Bool.and_eq_true, decide_eq_true_eq]
            omega
          · have hc1' : (0xf0 + n / 0x40000 == 0xf0) = false := by
              simp [beq_iff_eq]; omega
            by_cases hc2 : 0xf0 + n / 0x40000 = 0xf4
            · have hc2' : (0xf0 + n / 0x40000 == 0xf4) = true := by simp [beq_iff_eq, hc2]
              simp only [hc1', Bool.false_eq_true, if_false, hc2', if_true,
                Bool.and_eq_true, decide_eq_true_eq]
              omega
            · have hc2' : (0xf0 + n / 0x40000 == 0xf4) = false := by
                simp [beq_iff_eq]; omega
              simp only [hc1', Bool.false_eq_true, if_false, hc2',
                Bool.and_eq_true, decide_eq_true_eq]
              omega
        have e7 : isCont (0x80 + n / 64 % 64) = true := by simp [isCont]; omega
        have e8 : isCont (0x80 + n % 64) = true := by simp [isCont]; omega
        rw [if_neg h1, if_neg h2, if_neg h3, utf8DecodeR.eq_def]
        simp [e1, e2, e3, e4, e5, e6, e7, e8]
        rw [← hofn]
        congr 1
        omega

/-- Decoding inverts encoding on any string prefix. -/
theorem utf8DecodeR_str_append (s : Str) (rest : List Nat) :
    utf8DecodeR (utf8Str s ++ rest) = s ++ utf8DecodeR rest := by
  induction s with
  | nil => simp [utf8Str]
  | cons c cs ih =>
    simp only [utf8Str, List.append_assoc, utf8DecodeR_char_append, ih, List.cons_append]

/-- UTF-8 round trip: `buffer.toString("utf8")` inverts `Buffer.from(s)`. -/
theorem utf8DecodeR_utf8Str (s : Str) : utf8DecodeR (utf8Str s) = s := by
  have := utf8DecodeR_str_append s []
  simpa [utf8DecodeR] using this

/-- UTF-8 encoding is injective. -/
theorem utf8Str_injective : Function.Injective utf8Str := by
  intro a b h
  have := utf8DecodeR_utf8Str a
  rw [h, utf8DecodeR_utf8Str b] at this
  exact this.symm

/-- Encoding a concatenation concatenates the encodings. -/
theorem utf8Str_append (a b : Str) : utf8Str (a ++ b) = utf8Str a ++ utf8Str b := by
  induction a with
  | nil => simp [utf8Str]
  | cons c cs ih => simp [utf8Str, ih]

/-- Decoding the 6-bit groups of a byte sequence gives back the bytes. -/
theorem bytesOfVals_valsOf (b : List Nat) (hb : ∀ x ∈ b, x < 256) :
    bytesOfVals (valsOf b) = b := by
  induction b using valsOf.induct with
  | case1 b1 b2 b3 r ih =>
    have h1 : b1 < 256 := hb _ (by simp)
    have h2 : b2 < 256 := hb _ (by simp)
    have h3 : b3 < 256 := hb _ (by simp)
    have ih' := ih fun x hx => hb _ (by simp [hx])
    simp only [valsOf, bytesOfVals, List.cons.injEq]
    exact ⟨by omega, by omega, by omega, ih'⟩
  | case2 b1 b2 =>
    have h1 : b1 < 256 := hb _ (by simp)
    have h2 : b2 < 256 := hb _ (by simp)
    simp only [valsOf, bytesOfVals, List.cons.injEq]
    exact ⟨by omega, by omega, trivial⟩
  | case3 b1 =>
    have h1 : b1 < 256 := hb _ (by simp)
    simp only [valsOf, bytesOfVals, List.cons.injEq]
    exact ⟨by omega, trivial⟩
  | case4 => rfl

/-- The 6-bit groups of bytes are below 64. -/
theorem valsOf_lt (b : List Nat) (hb : ∀ x ∈ b, x < 256) :
    ∀ v ∈ valsOf b, v < 64 := by
  induction b using valsOf.induct with
  | case1 b1 b2 b3 r ih =>
    have h1 : b1 < 256 := hb _ (by simp)
    have h2 : b2 < 256 := hb _ (by simp)
    have h3 : b3 < 256 := hb _ (by simp)
    have ih' := ih fun x hx => hb _ (by simp [hx])
    intro v hv
    simp only [valsOf, List.mem_cons] at hv
    rcases hv with rfl | rfl | rfl | rfl | h
    · omega
    · omega
    · omega
    · omega
    · exact ih' v h
  | case2 b1 b2 =>
    have h1 : b1 < 256 := hb _ (by simp)
    have h2 : b2 < 256 := hb _ (by simp)
    intro v hv
    simp only [valsOf, List.mem_cons] at hv
    rcases hv with rfl | rfl | rfl | h
    · omega
    · omega
    · omega
    · simp at h
  | case3 b1 =>
    have h1 : b1 < 256 := hb _ (by simp)
    intro v hv
    simp only [valsOf, List.mem_cons] at hv
    rcases hv with rfl | rfl | h
    · omega
    · omega
    · simp at h
  | case4 => intro v hv; simp [valsOf] at hv

/-- For out-of-range groups `stdChar` falls back to the `getD` default. -/
theorem stdChar_ge (v : Nat) (h : 64 ≤ v) : stdChar v = 'A' := by
  apply List.getD_eq_default
  have : stdAlphabet.length = 64 := by decide
  omega

/-- `base64url` characters are never `=`. -/
theorem urlChar_ne_pad (v : Nat) : urlChar v ≠ '=' := by
  by_cases h : v < 64
  · revert h
    have : ∀ v, v < 64 → urlChar v ≠ '=' := by decide
    exact this v
  · rw [urlChar, stdChar_ge v (by omega)]
    decide

/-- `base64url` characters are never `.`. -/
theorem urlChar_ne_dot (v : Nat) : urlChar v ≠ '.' := by
  by_cases h : v < 64
  · revert h
    have : ∀ v, v < 64 → urlChar v ≠ '.' := by decide
    exact this v
  · rw [urlChar, stdChar_ge v (by omega)]
    decide

/-- The decode-side replacements invert the encode-side ones on alphabet
characters, and `charVal` recovers the 6-bit group. -/
theorem charVal_backChar_urlChar (v : Nat) (h : v < 64) :
    charVal (backChar (urlChar v)) = some v := by
  revert h
  have : ∀ v, v < 64 → charVal (backChar (urlChar v)) = some v := by decide
  exact this v

/-- Bytes of the UTF-8 encoding of one character are below 256. -/
theorem utf8Char_lt (c : Char) : ∀ x ∈ utf8Char c, x < 256 := by
  obtain ⟨n, hn, hv⟩ : ∃ n, c.toNat = n ∧ (n < 0xd800 ∨ (0xdfff < n ∧ n < 0x110000)) :=
    ⟨c.toNat, rfl, c.valid⟩
  intro x hx
  simp only [utf8Char, hn] at hx
  by_cases h1 : n < 0x80
  · simp [h1] at hx; omega
  · by_cases h2 : n < 0x800
    · simp [h1, h2] at hx; omega
    · by_cases h3 : n < 0x10000
      · simp [h1, h2, h3] at hx
        rcases hx with rfl | rfl | rfl
        all_goals omega
      · simp [h1, h2, h3] at hx
        rcases hx with rfl | rfl | rfl | rfl
        all_goals omega

/-- Bytes of the UTF-8 encoding of a string are below 256. -/
theorem utf8Str_lt (s : Str) : ∀ x ∈ utf8Str s, x < 256 := by
  induction s with
  | nil => intro x hx; simp [utf8Str] at hx
  | cons c cs ih =>
    intro x hx
    simp only [utf8Str, List.mem_append] at hx
    rcases hx with h | h
    · exact utf8Char_lt c x h
    · exact ih x h

/-- A `filterMap` whose function is the identity on the list is the identity. -/
theorem filterMap_some_id (l : List Nat) (g : Nat → Option Nat)
    (h : ∀ v ∈ l, g v = some v) : l.filterMap g = l := by
  induction l with
  | nil => rfl
  | cons a t ih =>
    rw [List.filterMap_cons, h a (by simp)]
    exact congrArg (a :: ·) (ih fun v hv => h v (by simp [hv]))

/-- Dropping while `p` holds skips a block of satisfying elements. -/
theorem dropWhile_replicate_append (p : Char → Bool) (a : Char) (hp : p a = true)
    (k : Nat) (l : Str) :
    (List.replicate k a ++ l).dropWhile p = l.dropWhile p := by
  induction k with
  | zero => simp
  | succ m ih => simp [List.replicate_succ, List.dropWhile_cons, hp, ih]

/-- Stripping trailing `=` undoes appended padding when the body has no `=`. -/
theorem stripTrailingEq_append (x : Str) (k : Nat) (hx : ∀ c ∈ x, c ≠ '=') :
    stripTrailingEq (x ++ List.replicate k '=') = x := by
  unfold stripTrailingEq
  rw [List.reverse_append, List.reverse_replicate,
    dropWhile_replicate_append _ _ (by simp) k x.reverse]
  cases h : x.reverse with
  | nil =>
    have : x = [] := by simpa using congrArg List.reverse h
    simp [this]
  | cons c cs =>
    have hc : c ∈ x := by
      rw [← List.mem_reverse, h]; simp
    have : (c == '=') = false := by
      simpa using hx c hc
    rw [List.dropWhile_cons, this]
    simp [← h]

/-- All padding characters are `=`. -/
theorem b64Pad_all_eq (n : Nat) : ∀ c ∈ b64Pad n, c = '=' := by
  intro c hc
  unfold b64Pad at hc
  split at hc
  · simp at hc
    rcases hc with rfl | rfl
    all_goals rfl
  · split at hc
    · simp at hc; exact hc
    · simp at hc

/-- `base64url` writes exactly the `urlChar` image of the 6-bit groups. -/
theorem base64url_eq_map (b : List Nat) :
    base64url b = (valsOf b).map urlChar := by
  unfold base64url toBase64 replaceAllChar
  rw [List.map_append, List.map_append, List.map_map, List.map_map, List.map_map]
  have hpadfix : ∀ c ∈ b64Pad b.length, ((fun c => if c = '/' then '_' else c) ∘
      fun c => if c = '+' then '-' else c) c = c := by
    intro c hc
    rw [b64Pad_all_eq _ c hc]
    rfl
  rw [List.map_congr_left hpadfix]
  have hbody : ∀ v, ((fun c => if c = '/' then '_' else c) ∘
      fun c => if c = '+' then '-' else c) (stdChar v) = urlChar v := by
    intro v
    simp only [Function.comp, urlChar]
    by_cases h1 : stdChar v = '+'
    · simp [h1]
    · by_cases h2 : stdChar v = '/' <;> simp [h1, h2]
  rw [show ∀ l : List Nat, l.map (((fun c => if c = '/' then '_' else c) ∘
      fun c => if c = '+' then '-' else c) ∘ stdChar) = l.map urlChar from
    fun l => List.map_congr_left fun v _ => hbody v]
  obtain ⟨k, hk⟩ : ∃ k, b64Pad b.length = List.replicate k '=' :=
    ⟨(b64Pad b.length).length, List.eq_replicate_of_mem (b64Pad_all_eq b.length)⟩
  rw [hk, List.map_id', stripTrailingEq_append]
  intro c hc
  obtain ⟨v, _, rfl⟩ := List.mem_map.mp hc
  exact urlChar_ne_pad v

/-- `base64url` output never contains the `.` separator. -/
theorem base64url_no_dot (b : List Nat) : '.' ∉ base64url b := by
  rw [base64url_eq_map]
  intro hc
  obtain ⟨v, _, hv⟩ := List.mem_map.mp hc
  exact urlChar_ne_dot v hv

/-- Skipped padding: `=` has no base64 value. -/
theorem filterMap_charVal_pad (k : Nat) :
    List.filterMap charVal (List.replicate k '=') = [] := by
  induction k with
  | zero => rfl
  | succ m ih => rw [List.replicate_succ, List.filterMap_cons]; simp [charVal, ih]

/-- The decode-side replacements followed by the forgiving value lookup
recover the 6-bit groups of an encoded byte sequence. -/
theorem filterMap_back_base64url (b : List Nat) (hb : ∀ x ∈ b, x < 256) :
    List.filterMap charVal
      (replaceAllChar '_' '/' (replaceAllChar '-' '+' (base64url b))) = valsOf b := by
  rw [base64url_eq_map]
  unfold replaceAllChar
  rw [List.map_map, List.map_map, List.filterMap_map]
  apply filterMap_some_id
  intro v hv
  have hlt : v < 64 := valsOf_lt b hb v hv
  have := charVal_backChar_urlChar v hlt
  simpa [Function.comp, backChar] using this

/-- Decoding `base64url` output (with any amount of appended `=` padding)
recovers the bytes. -/
theorem bufFromBase64_url_pad (b : List Nat) (hb : ∀ x ∈ b, x < 256) (j : Nat) :
    bufFromBase64 (replaceAllChar '_' '/' (replaceAllChar '-' '+' (base64url b)) ++
      List.replicate j '=') = b := by
  unfold bufFromBase64
  rw [List.filterMap_append, filterMap_back_base64url b hb, filterMap_charVal_pad,
    List.append_nil, bytesOfVals_valsOf b hb]

/-- `fromBase64UrlToString` inverts `base64url` on byte sequences, also when
extra `=` padding rides along on the wire. -/
theorem fromBase64UrlToString_base64url_pad (b : List Nat) (hb : ∀ x ∈ b, x < 256)
    (k : Nat) :
    fromBase64UrlToString (base64url b ++ List.replicate k '=') = utf8DecodeR b := by
  unfold fromBase64UrlToString
  have hmap : replaceAllChar '_' '/' (replaceAllChar '-' '+'
      (base64url b ++ List.replicate k '=')) =
      replaceAllChar '_' '/' (replaceAllChar '-' '+' (base64url b)) ++
        List.replicate k '=' := by
    unfold replaceAllChar
    rw [List.map_append, List.map_append, List.map_replicate, List.map_replicate]
    rfl
  rw [hmap]
  unfold pad64
  rw [List.append_assoc, ← List.replicate_add]
  rw [bufFromBase64_url_pad b hb]

/-- `fromBase64UrlToString` inverts `base64url` on byte sequences. -/
theorem fromBase64UrlToString_base64url (b : List Nat) (hb : ∀ x ∈ b, x < 256) :
    fromBase64UrlToString (base64url b) = utf8DecodeR b := by
  have := fromBase64UrlToString_base64url_pad b hb 0
  simpa using this

/-- Round trip: decoding an encoded JS string gives the string back. -/
theorem fromBase64UrlToString_base64urlStr (s : Str) :
    fromBase64UrlToString (base64urlStr s) = s := by
  unfold base64urlStr
  rw [fromBase64UrlToString_base64url _ (utf8Str_lt s), utf8DecodeR_utf8Str]

/-- `base64url` is injective on byte sequences. -/
theorem base64url_inj (b1 b2 : List Nat) (h1 : ∀ x ∈ b1, x < 256)
    (h2 : ∀ x ∈ b2, x < 256) (he : base64url b1 = base64url b2) : b1 = b2 := by
  have e1 := bufFromBase64_url_pad b1 h1 0
  rw [he, bufFromBase64_url_pad b2 h2 0] at e1
  exact e1.symm

/-- `Char.toUpper` at the `toNat` level. -/
theorem toUpper_toNat (c : Char) :
    (Char.toUpper c).toNat =
      if c.toNat ≥ 97 ∧ c.toNat ≤ 122 then c.toNat - 32 else c.toNat := by
  unfold Char.toUpper
  by_cases h : c.toNat ≥ 97 ∧ c.toNat ≤ 122
  · rw [if_pos h, if_pos h]
    exact charToNat_ofNat _ (Or.inl (by omega))
  · rw [if_neg h, if_neg h]

/-- `Char.toUpper` fixes characters outside `a`-`z`. -/
theorem toUpper_eq_self (c : Char) (h : ¬(c.toNat ≥ 97 ∧ c.toNat ≤ 122)) :
    Char.toUpper c = c := by
  unfold Char.toUpper
  rw [if_neg h]

/-- `Char.toUpper` is idempotent. -/
theorem toUpper_toUpper (c : Char) :
    Char.toUpper (Char.toUpper c) = Char.toUpper c := by
  by_cases h : c.toNat ≥ 97 ∧ c.toNat ≤ 122
  · apply toUpper_eq_self
    rw [toUpper_toNat, if_pos h]
    omega
  · rw [toUpper_eq_self c h, toUpper_eq_self c h]

/-- No character between `!` and `z` is JS whitespace. -/
theorem jsIsSpace_false_of (c : Char) (hl : 33 ≤ c.toNat) (hh : c.toNat ≤ 122) :
    jsIsSpace c = false := by
  unfold jsIsSpace
  simp only [jsSpaceCodes, List.mem_cons, List.not_mem_nil, or_false,
    decide_eq_false_iff_not]
  omega

/-- Upper-casing does not change whether a character is JS whitespace. -/
theorem jsIsSpace_toUpper (c : Char) : jsIsSpace (Char.toUpper c) = jsIsSpace c := by
  by_cases h : c.toNat ≥ 97 ∧ c.toNat ≤ 122
  · have h1 : jsIsSpace c = false := jsIsSpace_false_of c (by omega) (by omega)
    have h2 : jsIsSpace (Char.toUpper c) = false := by
      apply jsIsSpace_false_of <;> rw [toUpper_toNat, if_pos h] <;> omega
    rw [h1, h2]
  · rw [toUpper_eq_self c h]

/-- `dropWhile` is idempotent. -/
theorem dropWhile_idem (p : Char → Bool) (l : Str) :
    (l.dropWhile p).dropWhile p = l.dropWhile p := by
  induction l with
  | nil => rfl
  | cons c t ih =>
    by_cases h : p c
    · simp [List.dropWhile_cons, h, ih]
    · simp [List.dropWhile_cons, h]

/-- `dropWhile` drops a prefix. -/
theorem dropWhile_eq_drop (p : Char → Bool) (l : Str) :
    ∃ k, l.dropWhile p = l.drop k := by
  induction l with
  | nil => exact ⟨0, rfl⟩
  | cons c t ih =>
    by_cases h : p c
    · obtain ⟨k, hk⟩ := ih
      exact ⟨k + 1, by simp [List.dropWhile_cons, h, hk]⟩
    · exact ⟨0, by simp [List.dropWhile_cons, h]⟩

/-- `dropTrailing` keeps a prefix of the list. -/
theorem dropTrailing_eq_take (p : Char → Bool) (l : Str) :
    ∃ m, dropTrailing p l = l.take m := by
  obtain ⟨k, hk⟩ := dropWhile_eq_drop p l.reverse
  refine ⟨l.length - k, ?_⟩
  unfold dropTrailing
  rw [hk, List.drop_reverse, List.reverse_reverse]

/-- The head of a `dropWhile` fixed point does not satisfy `p`. -/
theorem dW_fixed_head (p : Char → Bool) (c : Char) (t : Str)
    (h : (c :: t : Str).dropWhile p = c :: t) : p c = false := by
  by_cases hc : p c
  · rw [List.dropWhile_cons, if_pos hc] at h
    have hlen : ∀ l : Str, (l.dropWhile p).length ≤ l.length := by
      intro l
      induction l with
      | nil => simp
      | cons a b ih =>
        by_cases ha : p a
        · simp only [List.dropWhile_cons, ha, if_true, List.length_cons]
          omega
        · simp [List.dropWhile_cons, ha]
    have h1 := hlen t
    have h2 := congrArg List.length h
    simp at h2
    omega
  · simpa using hc

/-- Prefixes of `dropWhile` fixed points are fixed points. -/
theorem dW_fixed_take (p : Char → Bool) (l : Str) (m : Nat)
    (h : l.dropWhile p = l) : (l.take m).dropWhile p = l.take m := by
  cases l with
  | nil => simp
  | cons c t =>
    have hc := dW_fixed_head p c t h
    cases m with
    | zero => simp
    | succ m' => simp [List.take_succ_cons, List.dropWhile_cons, hc]

/-- `dropTrailing` preserves `dropWhile` fixed points. -/
theorem dW_fixed_dropTrailing (p : Char → Bool) (l : Str)
    (h : l.dropWhile p = l) :
    (dropTrailing p l).dropWhile p = dropTrailing p l := by
  obtain ⟨m, hm⟩ := dropTrailing_eq_take p l
  rw [hm]
  exact dW_fixed_take p l m h

/-- `dropTrailing` is idempotent. -/
theorem dropTrailing_idem (p : Char → Bool) (l : Str) :
    dropTrailing p (dropTrailing p l) = dropTrailing p l := by
  unfold dropTrailing
  rw [List.reverse_reverse, dropWhile_idem]

/-- The result of `jsTrim` starts with a non-space (or is empty). -/
theorem jsTrim_fixed_dW (s : Str) :
    (jsTrim s).dropWhile jsIsSpace = jsTrim s := by
  unfold jsTrim
  exact dW_fixed_dropTrailing _ _ (dropWhile_idem _ _)

/-- `jsTrim` is idempotent. -/
theorem jsTrim_idem (s : Str) : jsTrim (jsTrim s) = jsTrim s := by
  calc jsTrim (jsTrim s)
      = dropTrailing jsIsSpace ((jsTrim s).dropWhile jsIsSpace) := rfl
    _ = dropTrailing jsIsSpace (jsTrim s) := by rw [jsTrim_fixed_dW]
    _ = dropTrailing jsIsSpace (s.dropWhile jsIsSpace) := dropTrailing_idem _ _
    _ = jsTrim s := rfl

/-- Appending one space to trimmed text trims back to the same text. -/
theorem jsTrim_append_space (y : Str) :
    jsTrim (jsTrim y ++ [' ']) = jsTrim y := by
  have hfix := jsTrim_fixed_dW y
  cases hx : jsTrim y with
  | nil => decide
  | cons c t =>
    rw [hx] at hfix
    have hc : jsIsSpace c = false := dW_fixed_head _ c t hfix
    calc jsTrim ((c :: t) ++ [' '])
        = dropTrailing jsIsSpace (((c :: t) ++ [' ']).dropWhile jsIsSpace) := rfl
      _ = dropTrailing jsIsSpace ((c :: t) ++ [' ']) := by
          rw [List.cons_append, List.dropWhile_cons, hc]
          simp
      _ = ((' ' :: (c :: t).reverse).dropWhile jsIsSpace).reverse := by
          unfold dropTrailing
          rw [List.reverse_append]
          rfl
      _ = ((c :: t).reverse.dropWhile jsIsSpace).reverse := by
          rw [List.dropWhile_cons]
          simp [show jsIsSpace ' ' = true from by decide]
      _ = dropTrailing jsIsSpace (c :: t) := rfl
      _ = dropTrailing jsIsSpace (jsTrim y) := by rw [hx]
      _ = dropTrailing jsIsSpace (dropTrailing jsIsSpace (y.dropWhile jsIsSpace)) := rfl
      _ = dropTrailing jsIsSpace (y.dropWhile jsIsSpace) := dropTrailing_idem _ _
      _ = jsTrim y := rfl
      _ = c :: t := hx

/-- `dropWhile jsIsSpace` commutes with upper-casing. -/
theorem dropWhile_map_upper (l : Str) :
    (l.map Char.toUpper).dropWhile jsIsSpace =
      (l.dropWhile jsIsSpace).map Char.toUpper := by
  induction l with
  | nil => rfl
  | cons c t ih =>
    by_cases h : jsIsSpace c
    · have h2 : jsIsSpace (Char.toUpper c) = true := by rw [jsIsSpace_toUpper]; exact h
      simp only [List.map_cons, List.dropWhile_cons, h2, h, if_true, ih]
    · have h' : jsIsSpace c = false := by simpa using h
      have h2 : jsIsSpace (Char.toUpper c) = false := by rw [jsIsSpace_toUpper]; exact h'
      simp only [List.map_cons, List.dropWhile_cons, h2, h', Bool.false_eq_true,
        if_false, List.map_cons]

/-- `jsTrim` commutes with upper-casing. -/
theorem jsTrim_map_upper (l : Str) :
    jsTrim (l.map Char.toUpper) = (jsTrim l).map Char.toUpper := by
  unfold jsTrim dropTrailing
  rw [dropWhile_map_upper, ← List.map_reverse, dropWhile_map_upper, List.map_reverse]

/-- `normalizePlaca` is idempotent. -/
theorem normalizePlaca_idem (s : Str) :
    normalizePlaca (normalizePlaca s) = normalizePlaca s := by
  unfold normalizePlaca
  rw [jsTrim_map_upper, List.map_map, jsTrim_idem]
  exact List.map_congr_left fun c _ => by simp [Function.comp, toUpper_toUpper]

/-- A trailing space added to a normalized plate normalizes away. -/
theorem normalizePlaca_append_space (s : Str) :
    normalizePlaca (normalizePlaca s ++ [' ']) = normalizePlaca s := by
  unfold normalizePlaca
  have h := jsTrim_map_upper s
  rw [← h, jsTrim_append_space, h, List.map_map]
  exact List.map_congr_left fun c _ => by simp [Function.comp, toUpper_toUpper]

/-- A dot-free string splits into itself. -/
theorem splitDot_no_dot (a : Str) (ha : '.' ∉ a) : splitDot a = [a] := by
  induction a with
  | nil => rfl
  | cons c t ih =>
    have hc : ¬c = '.' := fun h => ha (by simp [h])
    have ht : '.' ∉ t := fun h => ha (by simp [h])
    simp only [splitDot, if_neg hc, ih ht]

/-- Splitting at an explicit separator after a dot-free first segment. -/
theorem splitDot_sep (a b : Str) (ha : '.' ∉ a) :
    splitDot (a ++ '.' :: b) = a :: splitDot b := by
  induction a with
  | nil => simp [splitDot]
  | cons c t ih =>
    have hc : ¬c = '.' := fun h => ha (by simp [h])
    have ht : '.' ∉ t := fun h => ha (by simp [h])
    simp only [List.cons_append, splitDot, if_neg hc, List.append_eq, ih ht]

/-- The number of split segments is the dot count plus one. -/
theorem splitDot_length (s : Str) :
    (splitDot s).length = s.count '.' + 1 := by
  induction s with
  | nil => rfl
  | cons c t ih =>
    by_cases hc : c = '.'
    · subst hc
      simp [splitDot, List.count_cons, ih]
    · simp only [splitDot, if_neg hc]
      cases hs : splitDot t with
      | nil => rw [hs] at ih; simp at ih
      | cons g gs =>
        rw [hs] at ih
        simp only [List.length_cons] at ih ⊢
        have hcc : (c == '.') = false := by simpa using hc
        simp [List.count_cons, hcc]
        omega

/-- Bytes of a serialized 32-bit word are below 256. -/
theorem wordBytes_lt (w : Nat) : ∀ x ∈ wordBytes w, x < 256 := by
  intro x hx
  simp only [wordBytes, List.mem_cons, List.not_mem_nil, or_false] at hx
  rcases hx with rfl | rfl | rfl | rfl <;> omega

/-- Bytes of a serialized SHA-256 state are below 256. -/
theorem serializeH8_lt (s : H8) : ∀ x ∈ serializeH8 s, x < 256 := by
  intro x hx
  simp only [serializeH8, List.mem_append, or_assoc] at hx
  rcases hx with hx | hx | hx | hx | hx | hx | hx | hx <;> exact wordBytes_lt _ x hx

/-- SHA-256 digests are byte sequences. -/
theorem sha256_lt (m : List Nat) : ∀ x ∈ sha256 m, x < 256 := by
  intro x hx
  exact serializeH8_lt _ x hx

/-- HMAC-SHA256 digests are byte sequences. -/
theorem hmacSha256_lt (key msg : List Nat) : ∀ x ∈ hmacSha256 key msg, x < 256 := by
  intro x hx
  exact sha256_lt _ x hx

/-- A serialized SHA-256 state has 32 bytes. -/
theorem serializeH8_length (s : H8) : (serializeH8 s).length = 32 := by
  simp [serializeH8, wordBytes]

/-- SHA-256 digests have 32 bytes. -/
theorem sha256_length (m : List Nat) : (sha256 m).length = 32 :=
  serializeH8_length _

/-- HMAC-SHA256 digests have 32 bytes. -/
theorem hmacSha256_length (key msg : List Nat) :
    (hmacSha256 key msg).length = 32 :=
  sha256_length _

/-- The number of 6-bit groups of a byte sequence. -/
theorem valsOf_length (b : List Nat) :
    (valsOf b).length = (4 * b.length + 2) / 3 := by
  induction b using valsOf.induct with
  | case1 b1 b2 b3 r ih =>
    simp only [valsOf, List.length_cons, ih]
    omega
  | case2 b1 b2 => simp [valsOf]
  | case3 b1 => simp [valsOf]
  | case4 => rfl

/-- The length of a `base64url` rendering. -/
theorem base64url_length (b : List Nat) :
    (base64url b).length = (4 * b.length + 2) / 3 := by
  rw [base64url_eq_map, List.length_map, valsOf_length]

/-- Signatures are 43 characters (32 digest bytes, unpadded base64). -/
theorem sign_length (s : Str) : (sign s).length = 43 := by
  unfold sign
  rw [base64url_length, hmacSha256_length]

/-- Signatures contain no `.`. -/
theorem sign_no_dot (s : Str) : '.' ∉ sign s := base64url_no_dot _

/-- Verification accepts a two-segment token whose signature segment is the
recomputed signature, and returns the re-normalized decoded payload. -/
theorem verifyQrToken_accept (t a b : Str) (hs : splitDot t = [a, b])
    (hb : b = sign (fromBase64UrlToString a)) :
    verifyQrToken t = some (normalizePlaca (fromBase64UrlToString a)) := by
  unfold verifyQrToken
  rw [hs, hb]
  simp [timingSafeEqual]

/-- Verification rejects a two-segment token whose signature segment differs
from the recomputed signature (whatever the reason). -/
theorem verifyQrToken_reject (t a b : Str) (hs : splitDot t = [a, b])
    (hb : b ≠ sign (fromBase64UrlToString a)) : verifyQrToken t = none := by
  unfold verifyQrToken
  rw [hs]
  by_cases hl : (utf8Str b).length = (utf8Str (sign (fromBase64UrlToString a))).length
  · have hne : ¬utf8Str b = utf8Str (sign (fromBase64UrlToString a)) :=
      fun h => hb (utf8Str_injective h)
    simp [timingSafeEqual, hl, hne]
  · simp [timingSafeEqual, hl]

/-- Verification rejects any token that does not split into exactly two
segments. -/
theorem verifyQrToken_badsplit (t : Str) (h : (splitDot t).length ≠ 2) :
    verifyQrToken t = none := by
  unfold verifyQrToken
  cases hs : splitDot t with
  | nil => rfl
  | cons a rest =>
    cases rest with
    | nil => rfl
    | cons b rest2 =>
      cases rest2 with
      | nil => exact absurd (by rw [hs]; rfl) h
      | cons c r3 => rfl

/-- Verification accepts the canonical token of any payload string and
returns the normalized payload. -/
theorem verify_canonical (s : Str) :
    verifyQrToken (base64urlStr s ++ '.' :: sign s) = some (normalizePlaca s) := by
  have hs : splitDot (base64urlStr s ++ '.' :: sign s) = [base64urlStr s, sign s] := by
    unfold base64urlStr
    rw [splitDot_sep _ _ (base64url_no_dot _), splitDot_no_dot _ (sign_no_dot s)]
  rw [verifyQrToken_accept _ _ _ hs (by rw [fromBase64UrlToString_base64urlStr]),
    fromBase64UrlToString_base64urlStr]

/-- `fromBase64UrlToString` is the text reading of the decoded bytes. -/
theorem fromBase64UrlToString_eq_bytes (seg : Str) :
    fromBase64UrlToString seg = utf8DecodeR (fromBase64UrlBytes seg) := rfl

/-- Byte-level decoding inverts `base64url`, also with appended `=`. -/
theorem fromBase64UrlBytes_base64url (b : List Nat) (hb : ∀ x ∈ b, x < 256)
    (k : Nat) :
    fromBase64UrlBytes (base64url b ++ List.replicate k '=') = b := by
  unfold fromBase64UrlBytes
  have hmap : replaceAllChar '_' '/' (replaceAllChar '-' '+'
      (base64url b ++ List.replicate k '=')) =
      replaceAllChar '_' '/' (replaceAllChar '-' '+' (base64url b)) ++
        List.replicate k '=' := by
    unfold replaceAllChar
    rw [List.map_append, List.map_append, List.map_replicate, List.map_replicate]
    rfl
  rw [hmap]
  unfold pad64
  rw [List.append_assoc, ← List.replicate_add]
  rw [bufFromBase64_url_pad b hb]

/-- A token whose second part contains a `.` splits into at least three
segments, so verification rejects it. -/
theorem verify_none_dot_in_second (a b : Str) (hb : '.' ∈ b) :
    verifyQrToken (a ++ '.' :: b) = none := by
  apply verifyQrToken_badsplit
  rw [splitDot_length]
  have h1 : 0 < b.count '.' := List.count_pos_iff.mpr hb
  rw [List.count_append, List.count_cons]
  simp
  omega

/-- Verification rejects any token whose dot count is not one. -/
theorem verifyQrToken_badcount (t : Str) (h : t.count '.' ≠ 1) :
    verifyQrToken t = none := by
  apply verifyQrToken_badsplit
  rw [splitDot_length]
  omega

/-- An element written by `List.set` at an in-range index is read back. -/
theorem getq_set (l : Str) (i : Nat) (c : Char) (h : i < l.length) :
    (l.set i c).get? i = some c := by
  induction l generalizing i with
  | nil => simp at h
  | cons a t ih =>
    cases i with
    | zero => rfl
    | succ j =>
      simp only [List.set_cons_succ, List.get?_cons_succ]
      exact ih j (by simpa using h)

/-- Setting an in-range position to a character different from the one read
there changes the list. -/
theorem set_ne_of_get_ne (l : Str) (i : Nat) (c : Char) (h : i < l.length)
    (hc : c ≠ l.get ⟨i, h⟩) : l.set i c ≠ l := by
  intro he
  have h1 := getq_set l i c h
  rw [he, List.get?_eq_get h] at h1
  exact hc (Option.some.injEq _ _ ▸ h1.symm ▸ rfl)

/-- C1: Round-trip — for every non-empty plate text `p`, under the fixed
process secret, `verifyQrToken (makeQrToken p)` succeeds and returns the
normalized plate `normalizePlaca p`. -/
theorem c1_round_trip (p : Str) (_hp : p ≠ []) :
    verifyQrToken (makeQrToken p) = some (normalizePlaca p) := by
  unfold makeQrToken
  rw [verify_canonical, normalizePlaca_idem]

/-- C1 witness at the concrete plate `"aB 1"`. -/
theorem c1_round_trip_witness :
    ("aB 1".toList ≠ ([] : Str)) ∧
      verifyQrToken (makeQrToken "aB 1".toList) =
        some (normalizePlaca "aB 1".toList) :=
  ⟨by decide, c1_round_trip _ (by decide)⟩

/-- C2 counterexample: append one `=` to a valid token. The signature
segment still decodes, byte for byte, to exactly the HMAC-SHA256 digest
recomputed over the decoded payload, yet `verifyQrToken` rejects the token —
the code compares encoded strings, never decoded signature bytes, so
"valid iff decoded digests agree" fails right-to-left. -/
theorem c2_counterexample :
    fromBase64UrlToString "QQ".toList = "A".toList ∧
    splitDot (makeQrToken "A".toList ++ ['=']) =
      ["QQ".toList, sign "A".toList ++ ['=']] ∧
    fromBase64UrlBytes (sign "A".toList ++ ['=']) =
      hmacSha256 (utf8Str QR_SECRET) (utf8Str "A".toList) ∧
    verifyQrToken (makeQrToken "A".toList ++ ['=']) = none := by
  have hn : normalizePlaca "A".toList = "A".toList := by decide
  have hb : base64urlStr "A".toList = "QQ".toList := by decide
  have htok : makeQrToken "A".toList ++ ['='] =
      "QQ".toList ++ '.' :: (sign "A".toList ++ ['=']) := by
    unfold makeQrToken
    rw [hn, hb]
    simp
  have hsig_ne : sign "A".toList ++ ['='] ≠
      sign (fromBase64UrlToString "QQ".toList) := by
    intro h
    have := congrArg List.length h
    rw [List.length_append, sign_length, sign_length] at this
    simp at this
  have hsplit : splitDot (makeQrToken "A".toList ++ ['=']) =
      ["QQ".toList, sign "A".toList ++ ['=']] := by
    rw [htok, splitDot_sep _ _ (by decide), splitDot_no_dot]
    intro hd
    rcases List.mem_append.mp hd with hd | hd
    · exact sign_no_dot _ hd
    · simp at hd
  refine ⟨by decide, hsplit, ?_, ?_⟩
  · show fromBase64UrlBytes (base64url
        (hmacSha256 (utf8Str QR_SECRET) (utf8Str "A".toList)) ++ ['=']) = _
    rw [show (['='] : Str) = List.replicate 1 '=' from rfl]
    exact fromBase64UrlBytes_base64url _ (hmacSha256_lt _ _) 1
  · exact verifyQrToken_reject _ _ _ hsplit hsig_ne

/-- C2 amended: a token is accepted iff it splits at `.` into exactly two
segments and the signature segment equals, as a string, the unpadded
base64url rendering of the HMAC digest recomputed over the decoded payload
(encoded-string equality, not decoded-byte equality). -/
theorem c2_amended (t : Str) :
    (∃ r, verifyQrToken t = some r) ↔
      ∃ a b, splitDot t = [a, b] ∧ b = sign (fromBase64UrlToString a) := by
  constructor
  · rintro ⟨r, hr⟩
    cases hs : splitDot t with
    | nil => rw [verifyQrToken_badsplit t (by rw [hs]; simp)] at hr; cases hr
    | cons a rest =>
      cases rest with
      | nil => rw [verifyQrToken_badsplit t (by rw [hs]; simp)] at hr; cases hr
      | cons b rest2 =>
        cases rest2 with
        | nil =>
          refine ⟨a, b, rfl, ?_⟩
          by_contra hb
          rw [verifyQrToken_reject t a b hs hb] at hr
          cases hr
        | cons c r3 =>
          rw [verifyQrToken_badsplit t (by rw [hs]; simp)] at hr; cases hr
  · rintro ⟨a, b, hs, hb⟩
    exact ⟨_, verifyQrToken_accept t a b hs hb⟩

/-- C2 amended witness: the characterization instantiated at the concrete
token of plate `"A"`. -/
theorem c2_amended_witness :
    (∃ r, verifyQrToken (makeQrToken "A".toList) = some r) ↔
      ∃ a b, splitDot (makeQrToken "A".toList) = [a, b] ∧
        b = sign (fromBase64UrlToString a) :=
  c2_amended (makeQrToken "A".toList)

/-- C3 counterexample: `makeQrToken "A"` is `"QQ." ++ sign "A"`; replacing
the payload byte at index 1 (`Q`, 81) by the different byte `R` (82) gives
`"QR." ++ sign "A"`, which still decodes to payload `"A"` (the change is in
the four unused trailing bits of the final base64 character), so
verification accepts it — the claim that every payload byte flip is
rejected is false. -/
theorem c3_counterexample :
    makeQrToken "A".toList = "QQ".toList ++ '.' :: sign "A".toList ∧
    "QR".toList = ("QQ".toList).set 1 'R' ∧
    verifyQrToken ("QR".toList ++ '.' :: sign "A".toList) = some "A".toList := by
  have hn : normalizePlaca "A".toList = "A".toList := by decide
  have hb : base64urlStr "A".toList = "QQ".toList := by decide
  have hdec : fromBase64UrlToString "QR".toList = "A".toList := by decide
  refine ⟨?_, by decide, ?_⟩
  · unfold makeQrToken
    rw [hn, hb]
  · rw [verifyQrToken_accept _ "QR".toList (sign "A".toList)
      (by rw [splitDot_sep _ _ (by decide), splitDot_no_dot _ (sign_no_dot _)])
      (by rw [hdec]), hdec, hn]

/-- C3 amended: replacing one character of the payload segment of a valid
token (the signature segment unchanged) yields a token that verification
rejects, unless the altered segment still decodes to a payload whose
recomputed signature equals the token's signature — in which case the
normalized decode is returned (the counterexample: a change confined to the
unused bits of the final base64 character leaves the decode unchanged). -/
theorem c3_amended (p : Str) (i : Nat) (c : Char)
    (hi : i < (base64urlStr (normalizePlaca p)).length)
    (_hc : c ≠ (base64urlStr (normalizePlaca p)).get ⟨i, hi⟩) :
    verifyQrToken ((base64urlStr (normalizePlaca p)).set i c ++ '.' ::
        sign (normalizePlaca p)) =
      if c ≠ '.' ∧ sign (fromBase64UrlToString
            ((base64urlStr (normalizePlaca p)).set i c)) =
          sign (normalizePlaca p)
      then some (normalizePlaca (fromBase64UrlToString
        ((base64urlStr (normalizePlaca p)).set i c)))
      else none := by
  by_cases hdot : c = '.'
  · subst hdot
    have hmem : '.' ∈ (base64urlStr (normalizePlaca p)).set i '.' := by
      have := getq_set (base64urlStr (normalizePlaca p)) i '.' hi
      exact List.get?_mem this
    rw [if_neg (by simp)]
    apply verifyQrToken_badcount
    rw [List.count_append, List.count_cons]
    have h1 : 0 < ((base64urlStr (normalizePlaca p)).set i '.').count '.' :=
      List.count_pos_iff.mpr hmem
    simp
    omega
  · have hnod : '.' ∉ (base64urlStr (normalizePlaca p)).set i c := by
      intro hd
      rcases List.mem_or_eq_of_mem_set hd with hd | hd
      · exact base64url_no_dot _ hd
      · exact hdot hd.symm
    have hsplit : splitDot ((base64urlStr (normalizePlaca p)).set i c ++ '.' ::
        sign (normalizePlaca p)) =
        [(base64urlStr (normalizePlaca p)).set i c, sign (normalizePlaca p)] := by
      rw [splitDot_sep _ _ hnod, splitDot_no_dot _ (sign_no_dot _)]
    by_cases hsig : sign (fromBase64UrlToString
        ((base64urlStr (normalizePlaca p)).set i c)) = sign (normalizePlaca p)
    · rw [if_pos ⟨hdot, hsig⟩]
      exact verifyQrToken_accept _ _ _ hsplit hsig.symm
    · rw [if_neg (by simp [hsig])]
      exact verifyQrToken_reject _ _ _ hsplit (fun h => hsig h.symm)

/-- C3 amended witness at plate `"A"`, payload position 1, replacement `R`. -/
theorem c3_amended_witness :
    (1 < (base64urlStr (normalizePlaca "A".toList)).length) ∧
    verifyQrToken ((base64urlStr (normalizePlaca "A".toList)).set 1 'R' ++ '.' ::
        sign (normalizePlaca "A".toList)) =
      if 'R' ≠ '.' ∧ sign (fromBase64UrlToString
            ((base64urlStr (normalizePlaca "A".toList)).set 1 'R')) =
          sign (normalizePlaca "A".toList)
      then some (normalizePlaca (fromBase64UrlToString
        ((base64urlStr (normalizePlaca "A".toList)).set 1 'R')))
      else none :=
  ⟨by decide, c3_amended "A".toList 1 'R' (by decide) (by decide)⟩

/-- C4: Tamper detection on the signature — in the token `makeQrToken p`
(whose segments are the encoded plate and the signature), replacing any
single character of the signature segment by a different character makes
`verifyQrToken` return Invalid (`none`). The segments are ASCII, so
characters coincide with bytes. -/
theorem c4_tamper_signature (p : Str) (i : Nat) (c : Char)
    (hi : i < (sign (normalizePlaca p)).length)
    (hc : c ≠ (sign (normalizePlaca p)).get ⟨i, hi⟩) :
    makeQrToken p =
      base64urlStr (normalizePlaca p) ++ '.' :: sign (normalizePlaca p) ∧
    verifyQrToken (base64urlStr (normalizePlaca p) ++ '.' ::
        (sign (normalizePlaca p)).set i c) = none := by
  refine ⟨rfl, ?_⟩
  have hne : (sign (normalizePlaca p)).set i c ≠ sign (normalizePlaca p) :=
    set_ne_of_get_ne _ i c hi hc
  by_cases hdot : '.' ∈ (sign (normalizePlaca p)).set i c
  · exact verify_none_dot_in_second _ _ hdot
  · have hsplit : splitDot (base64urlStr (normalizePlaca p) ++ '.' ::
        (sign (normalizePlaca p)).set i c) =
        [base64urlStr (normalizePlaca p), (sign (normalizePlaca p)).set i c] := by
      unfold base64urlStr
      rw [splitDot_sep _ _ (base64url_no_dot _), splitDot_no_dot _ hdot]
    apply verifyQrToken_reject _ _ _ hsplit
    rw [fromBase64UrlToString_base64urlStr]
    exact hne

/-- C4 witness at plate `"A"`, signature position 0, replacement `.`
(the replacement differs from the alphabet character found there). -/
theorem c4_tamper_signature_witness :
    (0 < (sign (normalizePlaca "A".toList)).length) ∧
    (makeQrToken "A".toList =
      base64urlStr (normalizePlaca "A".toList) ++ '.' ::
        sign (normalizePlaca "A".toList) ∧
    verifyQrToken (base64urlStr (normalizePlaca "A".toList) ++ '.' ::
        (sign (normalizePlaca "A".toList)).set 0 '.') = none) :=
  ⟨by rw [sign_length]; omega,
   c4_tamper_signature "A".toList 0 '.' (by rw [sign_length]; omega)
     (fun h => sign_no_dot (normalizePlaca "A".toList)
       (by rw [h]; exact List.get_mem _ _ _))⟩

/-- C5 counterexample: the (valid) token whose payload segment decodes to
`"ab"`, signed over `"ab"`, is accepted — but verification returns `"AB"`,
the re-normalized form, not the embedded decoded value `"ab"`: the code
returns `normalizePlaca(placa)`, contradicting "not re-normalized". -/
theorem c5_counterexample :
    fromBase64UrlToString "YWI".toList = "ab".toList ∧
    verifyQrToken ("YWI".toList ++ '.' :: sign "ab".toList) = some "AB".toList ∧
    "AB".toList ≠ "ab".toList := by
  have hdec : fromBase64UrlToString "YWI".toList = "ab".toList := by decide
  refine ⟨hdec, ?_, by decide⟩
  rw [verifyQrToken_accept _ "YWI".toList (sign "ab".toList)
      (by rw [splitDot_sep _ _ (by decide), splitDot_no_dot _ (sign_no_dot _)])
      (by rw [hdec]), hdec]
  decide

/-- C5 amended: whenever verification succeeds, the returned plate is the
`normalizePlaca` image of the decoded payload segment (not the decoded
payload itself). -/
theorem c5_amended (t a b r : Str) (hs : splitDot t = [a, b])
    (hr : verifyQrToken t = some r) :
    r = normalizePlaca (fromBase64UrlToString a) := by
  by_cases hb : b = sign (fromBase64UrlToString a)
  · rw [verifyQrToken_accept t a b hs hb] at hr
    exact (Option.some_inj.mp hr).symm
  · rw [verifyQrToken_reject t a b hs hb] at hr
    cases hr

/-- C5 amended witness at the token of plate `"A"`. -/
theorem c5_amended_witness :
    (splitDot (makeQrToken "A".toList) = ["QQ".toList, sign "A".toList] ∧
      verifyQrToken (makeQrToken "A".toList) = some "A".toList) ∧
    "A".toList = normalizePlaca (fromBase64UrlToString "QQ".toList) := by
  have hn : normalizePlaca "A".toList = "A".toList := by decide
  have hb : base64urlStr "A".toList = "QQ".toList := by decide
  have h1 : splitDot (makeQrToken "A".toList) = ["QQ".toList, sign "A".toList] := by
    unfold makeQrToken
    rw [hn, hb, splitDot_sep _ _ (by decide), splitDot_no_dot _ (sign_no_dot _)]
  have h2 : verifyQrToken (makeQrToken "A".toList) = some "A".toList := by
    unfold makeQrToken
    rw [hn, verify_canonical, hn]
  exact ⟨⟨h1, h2⟩, c5_amended _ _ _ _ h1 h2⟩

/-- C6: `verifyQrToken` is total and collapses every failure to the single
`none` outcome: a dot count different from one is rejected, a failed
signature comparison (including length mismatch, whose exception is caught)
is rejected, and every input yields either a plate or `none` — the model
itself is a total function, mirroring that the code never throws. -/
theorem c6_total_single_invalid (t : Str) :
    (t.count '.' ≠ 1 → verifyQrToken t = none) ∧
    (∀ a b, splitDot t = [a, b] → b ≠ sign (fromBase64UrlToString a) →
      verifyQrToken t = none) ∧
    (verifyQrToken t = none ∨ ∃ r, verifyQrToken t = some r) := by
  refine ⟨verifyQrToken_badcount t,
    fun a b hs hb => verifyQrToken_reject t a b hs hb, ?_⟩
  cases h : verifyQrToken t with
  | none => exact Or.inl rfl
  | some r => exact Or.inr ⟨r, rfl⟩

/-- C6 witness on the separator-free string `"not-a-token"`. -/
theorem c6_total_single_invalid_witness :
    (("not-a-token".toList : Str).count '.' ≠ 1) ∧
      verifyQrToken "not-a-token".toList = none :=
  ⟨by decide, (c6_total_single_invalid _).1 (by decide)⟩

/-- C8: the repository's two codec copies diverge — on the lowercase plate
`"ab"` the raw-signing `makeQrToken` of `src/src/server.ts` produces a
different token than the normalizing `makeQrToken` of `src/server.ts`
(their payload segments already differ), so the two issue functions are
not equal. -/
theorem c8_divergent_codecs :
    makeQrTokenRaw "ab".toList ≠ makeQrToken "ab".toList ∧
      makeQrTokenRaw ≠ makeQrToken := by
  have hne : makeQrTokenRaw "ab".toList ≠ makeQrToken "ab".toList := by
    have h1 : base64urlStr "ab".toList = ['Y', 'W', 'I'] := by decide
    have h2 : base64urlStr (normalizePlaca "ab".toList) = ['Q', 'U', 'I'] := by decide
    intro h
    unfold makeQrTokenRaw makeQrToken at h
    rw [h1, h2] at h
    simp only [List.cons_append, List.nil_append, List.cons.injEq] at h
    exact absurd h.1 (by decide)
  exact ⟨hne, fun h => hne (congrFun h _)⟩

/-- C9: valid tokens are not unique per plate — for every non-empty plate,
the token built from the normalized plate with one trailing space (signed
accordingly) differs from `makeQrToken p` yet verifies to the same
normalized plate, so `verifyQrToken` accepts strictly more tokens than
`makeQrToken` produces. -/
theorem c9_not_unique (p : Str) (_hp : p ≠ []) :
    ∃ t, t ≠ makeQrToken p ∧ verifyQrToken t = some (normalizePlaca p) := by
  refine ⟨base64urlStr (normalizePlaca p ++ [' ']) ++ '.' ::
    sign (normalizePlaca p ++ [' ']), ?_, ?_⟩
  · intro h
    have hs1 : splitDot (base64urlStr (normalizePlaca p ++ [' ']) ++ '.' ::
        sign (normalizePlaca p ++ [' '])) =
        [base64urlStr (normalizePlaca p ++ [' ']),
          sign (normalizePlaca p ++ [' '])] := by
      unfold base64urlStr
      rw [splitDot_sep _ _ (base64url_no_dot _), splitDot_no_dot _ (sign_no_dot _)]
    have hs2 : splitDot (makeQrToken p) =
        [base64urlStr (normalizePlaca p), sign (normalizePlaca p)] := by
      unfold makeQrToken base64urlStr
      rw [splitDot_sep _ _ (base64url_no_dot _), splitDot_no_dot _ (sign_no_dot _)]
    rw [h, hs2] at hs1
    have hseg : base64urlStr (normalizePlaca p) =
        base64urlStr (normalizePlaca p ++ [' ']) := by
      simpa using congrArg List.headI hs1
    unfold base64urlStr at hseg
    have hbytes := base64url_inj _ _ (utf8Str_lt _) (utf8Str_lt _) hseg
    have hstr := utf8Str_injective hbytes
    have hlen := congrArg List.length hstr
    simp at hlen
  · rw [verify_canonical, normalizePlaca_append_space]

/-- C9 witness at the concrete plate `"A"`. -/
theorem c9_not_unique_witness :
    ("A".toList ≠ ([] : Str)) ∧
      ∃ t, t ≠ makeQrToken "A".toList ∧
        verifyQrToken t = some (normalizePlaca "A".toList) :=
  ⟨by decide, c9_not_unique _ (by decide)⟩

/-- C10: the empty and whitespace-only plates are accepted end to end:
`makeQrToken` succeeds on both, the payload segment of the resulting token
is the empty string (the two tokens coincide), and `verifyQrToken` accepts
it and returns the empty plate. -/
theorem c10_empty_plate :
    splitDot (makeQrToken []) = [[], sign []] ∧
    verifyQrToken (makeQrToken []) = some [] ∧
    makeQrToken "  ".toList = makeQrToken [] ∧
    verifyQrToken (makeQrToken "  ".toList) = some [] := by
  have hn : normalizePlaca ([] : Str) = [] := rfl
  have hn2 : normalizePlaca "  ".toList = [] := by decide
  have hb : base64urlStr ([] : Str) = [] := by decide
  have hmodel : makeQrToken ([] : Str) = [] ++ '.' :: sign [] := by
    unfold makeQrToken
    rw [hn, hb]
  have h1 : splitDot (makeQrToken []) = [[], sign []] := by
    rw [hmodel, splitDot_sep _ _ (by simp), splitDot_no_dot _ (sign_no_dot _)]
  have h2 : verifyQrToken (makeQrToken []) = some [] := by
    unfold makeQrToken
    rw [hn, verify_canonical, hn]
  have h3 : makeQrToken "  ".toList = makeQrToken [] := by
    unfold makeQrToken
    rw [hn2, hn]
  exact ⟨h1, h2, h3, by rw [h3, h2]⟩

end Marchamo

